import Mathlib

/-!
# Verification of the avantorsciences-scraper specification extractor and CSV flattener

Shallow embedding of the pure string/collection logic of
`src/avantorsciences_scraper.py`:

* `clean_text_for_csv` (lines 1593-1606) — the value/key normalizer used by
  `save_to_csv`;
* the ten specification-extraction strategies of `extract_product_data`
  (lines 930-1458), modelled over an abstract document that records, for each
  Selenium query the code performs, the texts of the elements the query would
  return;
* the row building, column-header computation and row materialization of
  `save_to_csv` (lines 1608-1665).

Python strings are modelled as Lean `String`/`List Char`; `str.strip()` and
`re`'s `\s` are modelled over the ASCII whitespace characters
`' ' '\t' '\n' '\r' '\x0b' '\x0c'` (the non-ASCII Unicode whitespace that
Python would additionally strip plays no role in any claim); Python dicts
(insertion-ordered, update-in-place) are modelled as association lists.
-/

namespace AvantorScraper

/-- The whitespace characters recognised by Python's `str.strip()` and by
`re`'s `\s` class, restricted to ASCII. -/
def isPySpace (c : Char) : Bool :=
  c = ' ' || c = '\t' || c = '\n' || c = '\r' || c = '\x0b' || c = '\x0c'

/-- Drop trailing whitespace. -/
def dropTrailingWs (l : List Char) : List Char :=
  (l.reverse.dropWhile isPySpace).reverse

/-- Python `str.strip()` on a character list: drop leading and trailing
whitespace. -/
def pyStripList (l : List Char) : List Char :=
  dropTrailingWs (l.dropWhile isPySpace)

/-- Python `str.strip()`. -/
def pyStrip (s : String) : String := ⟨pyStripList s.data⟩

/-- Python `str.lower()` (ASCII case folding, which covers every string any
claim touches). -/
def pyLower (s : String) : String := ⟨s.data.map Char.toLower⟩

/-- Does the second list occur as an initial segment of the first? -/
def startsWithL : List Char → List Char → Bool
  | _, [] => true
  | [], _ :: _ => false
  | c :: cs, p :: ps => c == p && startsWithL cs ps

/-- Python `s.endswith(pat)`. -/
def pyEndsWith (s pat : String) : Bool := startsWithL s.data.reverse pat.data.reverse

/-- Python `c in s` for a single character. -/
def pyContainsChar (s : String) (c : Char) : Bool := s.data.any (· == c)

/-- Splitting worker for `pySplit`: scans left to right, cutting at each
leftmost non-overlapping occurrence of the (nonempty) separator, exactly as
Python's `str.split(sep)`.  The fuel argument starts at the list's length and
dominates every step, making the recursion structural. -/
def splitOnGo (sep : List Char) : Nat → List Char → List Char → List (List Char)
  | _, [], acc => [acc.reverse]
  | 0, l, acc => [acc.reverse ++ l]
  | fuel + 1, c :: rest, acc =>
    if startsWithL (c :: rest) sep then
      acc.reverse :: splitOnGo sep fuel ((c :: rest).drop sep.length) []
    else
      splitOnGo sep fuel rest (c :: acc)

/-- Python `s.split(sep)` for a nonempty separator. -/
def pySplit (s sep : String) : List String :=
  (splitOnGo sep.data s.data.length s.data []).map fun cs => ⟨cs⟩

/-- Python's substring test `sub in s` for a nonempty `sub`: splitting on a
substring that occurs produces more than one piece. -/
def pyContainsStr (s sub : String) : Bool := (pySplit s sub).length ≠ 1

/-- Python `sep.join(pieces)`. -/
def pyJoin (sep : String) : List String → String
  | [] => ""
  | [x] => x
  | x :: xs => x ++ sep ++ pyJoin sep xs

/-- Python `s.split(sep, 1)`: split at the first occurrence of `sep` only.
Callers in the scraper always guard on `sep in s`, so the one-piece case is
returned unchanged as `(s, "")` (Python would return a one-element list). -/
def pySplitOnce (s sep : String) : String × String :=
  match pySplit s sep with
  | [] => (s, "")
  | [x] => (x, "")
  | x :: rest => (x, pyJoin sep rest)

/-- `s.replace('\r\n', ' ')` on character lists: leftmost non-overlapping
replacement of the two-character sequence CR LF by one space. -/
def replaceCRLF : List Char → List Char
  | [] => []
  | '\r' :: '\n' :: rest => ' ' :: replaceCRLF rest
  | c :: rest => c :: replaceCRLF rest

/-- `s.replace('\n', ' ').replace('\r', ' ')` on character lists. -/
def replaceNLCR (l : List Char) : List Char :=
  l.map (fun c => if c = '\n' || c = '\r' then ' ' else c)

/-- `re.sub(r'\s+', ' ', s)` on character lists: every maximal run of
whitespace becomes a single space.  The flag records whether the previous
character belonged to a whitespace run. -/
def collapseWsAux : Bool → List Char → List Char
  | _, [] => []
  | prevWs, c :: cs =>
    if isPySpace c then
      if prevWs then collapseWsAux true cs
      else ' ' :: collapseWsAux true cs
    else c :: collapseWsAux false cs

/-- `re.sub(r'\s+', ' ', s)` on character lists. -/
def collapseWs (l : List Char) : List Char := collapseWsAux false l

/-- The scraper's `clean_text_for_csv` helper (lines 1593-1606) on a string
argument: replace CRLF / LF / CR by spaces, collapse whitespace runs to single
spaces, then strip. -/
def clean_text_for_csv_str (s : String) : String :=
  ⟨pyStripList (collapseWs (replaceNLCR (replaceCRLF s.data)))⟩

/-- `clean_text_for_csv` including its `None` check (line 1595): `None` maps
to the empty string. -/
def clean_text_for_csv : Option String → String
  | none => ""
  | some s => clean_text_for_csv_str s

/-- Python `s[:-1]`. -/
def pyDropLast (s : String) : String := ⟨s.data.dropLast⟩

/-! ## The specification map

`product_data["specifications"]` is a Python dict: insertion-ordered, and an
assignment `d[k] = v` updates an existing key in place (keeping its position)
or appends a fresh one.  Modelled as an association list. -/

abbrev SpecMap := List (String × String)

/-- Python dict assignment `m[k] = v`. -/
def dictInsert (m : SpecMap) (k v : String) : SpecMap :=
  if m.any (fun p => p.1 = k) then
    m.map (fun p => if p.1 = k then (k, v) else p)
  else m ++ [(k, v)]

/-! ## The abstract document

`extract_product_data` reads the page exclusively through Selenium queries
that return elements, of which only `.text` (and, in strategy 10, the
attribute map) is consumed.  The document model below records, for each query
the specification-extraction code performs, the texts the query would return.
A `find_element` call that raises `NoSuchElementException` is an `Option.none`
entry (the surrounding `try/except: continue` swallows the exception); a
`find_elements` call that matches nothing is an empty list. -/

/-- One `li` inside a `ul.spec-table` (strategy 1, lines 946-971): the texts
of its `name-col` and `value-col` descendant divs. -/
structure SpecLi where
  nameCols : List String
  valueCols : List String
deriving DecidableEq

/-- A table as the row loops see it: for each `tr`, the texts of its
`td`/`th` cells. -/
abbrev Table := List (List String)

/-- A definition list: the texts of its `dt` elements and of its `dd`
elements. -/
structure DlData where
  dts : List String
  dds : List String
deriving DecidableEq

/-- Outcome of one selector of the labeled-section scan (lines 1000-1108).
`notFound`: `find_element` raised and the `except: continue` fires.
`withParent`: the section element and its accordion/panel ancestor were both
found; carries the ancestor's tables, definition lists and full text.
`noParent`: the section element was found but the ancestor lookup raised, so
the fallback walks the texts of the first five following siblings. -/
inductive SectionTry where
  | notFound
  | withParent (tables : List Table) (dls : List DlData) (text : String)
  | noParent (siblingTexts : List String)
deriving DecidableEq

/-- A scalar JSON value inside a JSON-LD `itemOffered` object (strategy 8,
lines 1326-1342).  `other` stands for the non-`str`/`int` values the
`isinstance` check rejects (floats are not modelled; no claim touches them).
-/
inductive JVal where
  | jstr (v : String)
  | jint (v : Int)
  | other
deriving DecidableEq

/-- One `<script type="application/ld+json">` element: either it fails to
parse / lacks the `offers.itemOffered` shape (`bad`), or it yields the item's
field list. -/
inductive JsonLd where
  | bad
  | item (fields : List (String × JVal))
deriving DecidableEq

/-- The abstract document: the query results each extraction strategy of
`extract_product_data` consumes, in source order. -/
structure Doc where
  /-- strategy 1 (lines 936-985): the `ul.spec-table` elements with their
  list items. -/
  specTableUls : List (List SpecLi)
  /-- labeled-section scan (lines 990-1111): one outcome per selector. -/
  sectionTries : List SectionTry
  /-- strategy 3 / "Method 1" (lines 1114-1150): per table selector, the
  first matching table or `none`. -/
  specTables : List (Option Table)
  /-- strategy 4 / "Method 2" (lines 1155-1184): per dl selector, the
  matching definition lists. -/
  dlGroups : List (List DlData)
  /-- strategy 5 / "Method 3" (lines 1192-1212): per spec item, the texts of
  its label-like and value-like descendants. -/
  divItems : List (List String × List String)
  /-- strategy 6 / "Method 4" (lines 1222-1250): per matching `ul`, the texts
  of its `li` items. -/
  specUls : List (List String)
  /-- strategy 7 / "Method 5" (lines 1261-1285): per accordion selector, the
  first matching section's rows or `none`. -/
  accordionTables : List (Option Table)
  /-- strategy 8 / "Method 6" (lines 1295-1316): the texts of the
  specification-keyword divs. -/
  genericDivTexts : List String
  /-- strategy 9 / "Method 7" (lines 1326-1342): the JSON-LD scripts. -/
  jsonLdScripts : List JsonLd
  /-- strategy 10 / "Method 8" (lines 1353-1379): every table on the page. -/
  allTables : List Table
  /-- strategy 11 / "Method 9" (lines 1388-1418): the texts of the
  product/details/content containers. -/
  contentTexts : List String
  /-- strategy 12 / "Method 10" (lines 1430-1453): per data-attribute
  element, its attribute name/value map. -/
  dataAttrElems : List (List (String × String))
deriving DecidableEq

/-! ## Strategy 1: the `ul.spec-table` reader (code "Method 0", lines
936-985) -/

/-- Lines 951-967: one list item contributes its first `name-col` text
(stripped, one trailing colon removed) and first `value-col` text (stripped)
when both are present and nonempty. -/
def specLiStep (m : SpecMap) (li : SpecLi) : SpecMap :=
  match li.nameCols, li.valueCols with
  | n :: _, v :: _ =>
    let key := pyStrip n
    let val := pyStrip v
    let key := if pyEndsWith key ":" then pyStrip (pyDropLast key) else key
    if key ≠ "" ∧ val ≠ "" then dictInsert m key val else m
  | _, _ => m

/-- Lines 946-975: process the `ul.spec-table` elements in order; after each
`ul`, stop as soon as the map is non-empty (`if product_data["specifications"]:
break`). -/
def method0 : List (List SpecLi) → SpecMap → SpecMap
  | [], m => m
  | ul :: rest, m =>
    let m' := ul.foldl specLiStep m
    if m'.isEmpty then method0 rest m' else m'

/-! ## The labeled-section scan (lines 987-1111)

Note on the control flow: line 989 binds `spec_section_found = False` only
when the map is still empty, yet the selector loop at line 1000 and the final
read of `spec_section_found` at line 1110 run unconditionally.  Hence, when
strategy 1 already produced entries and no section selector matches, line 1110
raises `NameError`, the outer `except` of `extract_product_data` (line 1485)
catches it, and the function returns the data collected so far — skipping
every later strategy and the availability extraction. -/

/-- Rows of the section's tables (lines 1030-1043): stripped first two cells,
keys that lower-case to `property`/`value`/`specification` rejected. -/
def sectionRowStep (m : SpecMap) (cells : List String) : SpecMap :=
  match cells with
  | c0 :: c1 :: _ =>
    let key := pyStrip c0
    let val := pyStrip c1
    if key ≠ "" ∧ val ≠ "" ∧ pyLower key ∉ ["property", "value", "specification"] then
      dictInsert m key val
    else m
  | _ => m

/-- Definition lists (lines 1046-1055): pair `dt[i]` with `dd[i]` up to the
shorter length. -/
def dlStep (m : SpecMap) (dl : DlData) : SpecMap :=
  (dl.dts.zip dl.dds).foldl
    (fun m p =>
      let key := pyStrip p.1
      let val := pyStrip p.2
      if key ≠ "" ∧ val ≠ "" then dictInsert m key val else m)
    m

/-- One line of the section's free text (lines 1061-1074): split on a unique
colon, else on a unique `" - "`; key length bounded by `2 < len < 80`. -/
def sectionLineStep (m : SpecMap) (line : String) : SpecMap :=
  let line := pyStrip line
  if pyContainsChar line ':' ∧ (pySplit line ":").length = 2 then
    let p := pySplitOnce line ":"
    let key := pyStrip p.1
    let val := pyStrip p.2
    if key ≠ "" ∧ val ≠ "" ∧ 2 < key.length ∧ key.length < 80 then
      dictInsert m key val
    else m
  else if pyContainsStr line " - " ∧ (pySplit line " - ").length = 2 then
    let p := pySplitOnce line " - "
    let key := pyStrip p.1
    let val := pyStrip p.2
    if key ≠ "" ∧ val ≠ "" ∧ 2 < key.length ∧ key.length < 80 then
      dictInsert m key val
    else m
  else m

/-- One following sibling of the section element (lines 1086-1098): stripped
text, each line split at its first colon, both stripped parts nonempty. -/
def siblingStep (m : SpecMap) (t : String) : SpecMap :=
  let txt := pyStrip t
  if txt = "" then m
  else
    (pySplit txt "\n").foldl
      (fun m line =>
        if pyContainsChar line ':' then
          let p := pySplitOnce line ":"
          let key := pyStrip p.1
          let val := pyStrip p.2
          if key ≠ "" ∧ val ≠ "" then dictInsert m key val else m
        else m)
      m

/-- What one matched section selector contributes (lines 1022-1102). -/
def sectionProcess (m : SpecMap) : SectionTry → SpecMap
  | SectionTry.notFound => m
  | SectionTry.withParent tables dls text =>
    let m1 := tables.foldl (fun m t => t.foldl sectionRowStep m) m
    let m2 := if m1.isEmpty then dls.foldl dlStep m1 else m1
    if m2.isEmpty then (pySplit text "\n").foldl sectionLineStep m2 else m2
  | SectionTry.noParent siblingTexts =>
    (siblingTexts.take 5).foldl siblingStep m

/-- The selector loop (lines 1000-1108).  Returns the map together with the
flag "some selector matched" (i.e. line 1019 executed, so
`spec_section_found` is bound).  A matched selector whose contribution leaves
the map non-empty breaks the loop (lines 1076-1078, 1104-1105). -/
def sectionScan : List SectionTry → SpecMap → SpecMap × Bool
  | [], m => (m, false)
  | SectionTry.notFound :: rest, m => sectionScan rest m
  | t :: rest, m =>
    let m' := sectionProcess m t
    if m'.isEmpty then ((sectionScan rest m').1, true) else (m', true)

/-! ## Strategies 3-12 (code "Method 1" … "Method 10") -/

/-- "Method 1" rows (lines 1134-1144): like the section tables but with the
placeholder list `['', 'property', 'value', 'specification']`. -/
def m1RowStep (m : SpecMap) (cells : List String) : SpecMap :=
  match cells with
  | c0 :: c1 :: _ =>
    let key := pyStrip c0
    let val := pyStrip c1
    if key ≠ "" ∧ val ≠ "" ∧ pyLower key ∉ ["", "property", "value", "specification"] then
      dictInsert m key val
    else m
  | _ => m

/-- "Method 1" (lines 1129-1150): per selector, process the first matching
table; break once the map is non-empty.  NOTE: like the section scan, this
loop is not guarded by `if not product_data["specifications"]`. -/
def method1 : List (Option Table) → SpecMap → SpecMap
  | [], m => m
  | none :: rest, m => method1 rest m
  | some t :: rest, m =>
    let m' := t.foldl m1RowStep m
    if m'.isEmpty then method1 rest m' else m'

/-- "Method 2" (lines 1164-1184): per dl selector, all its definition lists;
break once non-empty. -/
def method2 : List (List DlData) → SpecMap → SpecMap
  | [], m => m
  | dls :: rest, m =>
    let m' := dls.foldl dlStep m
    if m'.isEmpty then method2 rest m' else m'

/-- "Method 3" (lines 1200-1212): first label-like and first value-like
descendant of each spec item, stripped, both nonempty. -/
def method3 (items : List (List String × List String)) (m : SpecMap) : SpecMap :=
  items.foldl
    (fun m item =>
      match item.1, item.2 with
      | k :: _, v :: _ =>
        let key := pyStrip k
        let val := pyStrip v
        if key ≠ "" ∧ val ≠ "" then dictInsert m key val else m
      | _, _ => m)
    m

/-- One `li` text of "Method 4" (lines 1232-1248): strip, split at the first
colon if any, else at the first `" - "`. -/
def m4LiStep (m : SpecMap) (t : String) : SpecMap :=
  let text := pyStrip t
  if pyContainsChar text ':' then
    let p := pySplitOnce text ":"
    let key := pyStrip p.1
    let val := pyStrip p.2
    if key ≠ "" ∧ val ≠ "" then dictInsert m key val else m
  else if pyContainsStr text " - " then
    let p := pySplitOnce text " - "
    let key := pyStrip p.1
    let val := pyStrip p.2
    if key ≠ "" ∧ val ≠ "" then dictInsert m key val else m
  else m

/-- "Method 4" (lines 1229-1250): every matching `ul`, every `li`; no break.
-/
def method4 (uls : List (List String)) (m : SpecMap) : SpecMap :=
  uls.foldl (fun m lis => lis.foldl m4LiStep m) m

/-- "Method 5" (lines 1268-1285): per accordion selector, the matched
section's rows, stripped first two cells, both nonempty; no break. -/
def method5 (sections : List (Option Table)) (m : SpecMap) : SpecMap :=
  sections.foldl
    (fun m sec =>
      match sec with
      | none => m
      | some rows =>
        rows.foldl
          (fun m cells =>
            match cells with
            | c0 :: c1 :: _ =>
              let key := pyStrip c0
              let val := pyStrip c1
              if key ≠ "" ∧ val ≠ "" then dictInsert m key val else m
            | _ => m)
          m)
    m

/-- "Method 6" (lines 1302-1316): stripped div text, lines split at the first
colon, key length `< 100`, value length `< 500`; no break. -/
def method6 (divTexts : List String) (m : SpecMap) : SpecMap :=
  divTexts.foldl
    (fun m t =>
      (pySplit (pyStrip t) "\n").foldl
        (fun m line =>
          if pyContainsChar line ':' then
            let p := pySplitOnce line ":"
            let key := pyStrip p.1
            let val := pyStrip p.2
            if key ≠ "" ∧ val ≠ "" ∧ key.length < 100 ∧ val.length < 500 then
              dictInsert m key val
            else m
          else m)
        m)
    m

/-- `str(value)` for the scalar JSON-LD values. -/
def jvalStr : JVal → String
  | JVal.jstr v => v
  | JVal.jint v => toString v
  | JVal.other => ""

/-- "Method 7" (lines 1327-1342): scalar fields of `offers.itemOffered`,
minus the generic-key stoplist; keys and values stored unmodified. -/
def method7 (scripts : List JsonLd) (m : SpecMap) : SpecMap :=
  scripts.foldl
    (fun m s =>
      match s with
      | JsonLd.bad => m
      | JsonLd.item fields =>
        fields.foldl
          (fun m f =>
            if f.1 ∉ ["@type", "@context", "name", "image", "description"] then
              match f.2 with
              | JVal.other => m
              | v => dictInsert m f.1 (jvalStr v)
            else m)
          m)
    m

/-- "Method 8" (lines 1356-1379): every table with at least two rows; keys
bounded below 100 characters and filtered by the navigation stoplist; break
after the first such table that fills the map. -/
def method8 : List Table → SpecMap → SpecMap
  | [], m => m
  | t :: rest, m =>
    if t.length ≥ 2 then
      let m' := t.foldl
        (fun m cells =>
          match cells with
          | c0 :: c1 :: _ =>
            let key := pyStrip c0
            let val := pyStrip c1
            if key ≠ "" ∧ val ≠ "" ∧ 0 < key.length ∧ key.length < 100 ∧
                pyLower key ∉ ["home", "products", "services", "about", "contact", "menu"] then
              dictInsert m key val
            else m
          | _ => m)
        m
      if m'.isEmpty then method8 rest m' else m'
    else method8 rest m

/-- The commerce stop terms of "Method 9" (line 1408). -/
def skipWords : List String := ["price", "cart", "buy", "add to", "description", "overview", "return"]

/-- `any(skip in key.lower() for skip in skip_words)` (line 1409). -/
def hasSkipWord (key : String) : Bool := skipWords.any (fun w => pyContainsStr (pyLower key) w)

/-- One line of "Method 9" (lines 1399-1416): strip the line; if it has a
unique colon, split there, bound `2 < len(key) < 50` and `len(value) < 200`,
and reject keys containing a commerce stop term; otherwise, if it has a
unique `" - "`, split there with the same bounds but — as in the source — no
stop-term check. -/
def m9LineStep (m : SpecMap) (rawLine : String) : SpecMap :=
  let line := pyStrip rawLine
  if pyContainsChar line ':' ∧ (pySplit line ":").length = 2 then
    let p := pySplitOnce line ":"
    let key := pyStrip p.1
    let val := pyStrip p.2
    if key ≠ "" ∧ val ≠ "" ∧ 2 < key.length ∧ key.length < 50 ∧ val.length < 200 then
      if hasSkipWord key then m else dictInsert m key val
    else m
  else if pyContainsStr line " - " ∧ (pySplit line " - ").length = 2 then
    let p := pySplitOnce line " - "
    let key := pyStrip p.1
    let val := pyStrip p.2
    if key ≠ "" ∧ val ≠ "" ∧ 2 < key.length ∧ key.length < 50 ∧ val.length < 200 then
      dictInsert m key val
    else m
  else m

/-- "Method 9" (lines 1394-1418): the stripped text of every content
container, line by line; no break. -/
def method9 (texts : List String) (m : SpecMap) : SpecMap :=
  texts.foldl (fun m t => (pySplit (pyStrip t) "\n").foldl m9LineStep m) m

/-- "Method 10" (lines 1437-1453): attributes whose lower-cased name contains
`spec` or `property`, stored as-is. -/
def method10 (elems : List (List (String × String))) (m : SpecMap) : SpecMap :=
  elems.foldl
    (fun m attrs =>
      attrs.foldl
        (fun m a =>
          if pyContainsStr (pyLower a.1) "spec" ∨ pyContainsStr (pyLower a.1) "property" then
            dictInsert m a.1 a.2
          else m)
        m)
    m

/-- The guard `if not product_data["specifications"]:` that precedes each of
"Method 2" … "Method 10": the method body runs only while the map is still
empty. -/
def guardedStage (f : SpecMap → SpecMap) (m : SpecMap) : SpecMap :=
  if m.isEmpty then f m else m

/-- The specification component of `extract_product_data` (lines 930-1458):
strategy 1 runs first; the labeled-section scan and "Method 1" run
unconditionally; "Method 2" through "Method 10" each run only while the map
is still empty.  When strategy 1 produced entries and no section selector
matched, line 1110 reads the unbound `spec_section_found` and the resulting
`NameError` is caught by the outer handler (line 1485), which returns the
data collected so far. -/
def extractSpecs (d : Doc) : SpecMap :=
  let s0 := method0 d.specTableUls []
  let sec := sectionScan d.sectionTries s0
  if ¬ s0.isEmpty ∧ ¬ sec.2 then sec.1
  else
    guardedStage (method10 d.dataAttrElems)
      (guardedStage (method9 d.contentTexts)
        (guardedStage (method8 d.allTables)
          (guardedStage (method7 d.jsonLdScripts)
            (guardedStage (method6 d.genericDivTexts)
              (guardedStage (method5 d.accordionTables)
                (guardedStage (method4 d.specUls)
                  (guardedStage (method3 d.divItems)
                    (guardedStage (method2 d.dlGroups)
                      (method1 d.specTables sec.1)))))))))

/-! ## The CSV flattener `save_to_csv` (lines 1563-1675)

The file writing itself (lines 1653-1665) is I/O; the model captures what it
writes: the header list and, per input record, the materialized row.  A
`ProductRecord` is the dict built by `extract_product_data`/`scrape_product`:
eight scalar fields (each possibly `None`) plus the specification dict. -/

/-- One product record as `save_to_csv` consumes it. -/
structure Product where
  product_code : Option String
  product_name : Option String
  model_number : Option String
  description : Option String
  price : Option String
  currency : Option String
  availability : Option String
  url : Option String
  specifications : SpecMap
deriving DecidableEq

/-- The fixed standard columns, in their fixed order (lines 1644-1645). -/
def standardFields : List String :=
  ["Product Code", "Product Name", "Model Number", "Description",
   "Price", "Currency", "Availability", "URL"]

/-- An export row: a Python dict from column name to cell value, modelled as
an insertion-ordered association list. -/
abbrev Row := List (String × String)

/-- Python `key in row`. -/
def rowHasKey (r : Row) (k : String) : Bool := r.any (fun q => q.1 = k)

/-- Python `row[key]` (for a present key), as an `Option`. -/
def rowGet (r : Row) (k : String) : Option String :=
  (r.find? (fun q => q.1 = k)).map Prod.snd

/-- Lines 1611-1620: the standard cells.  Every field is normalized through
`clean_text_for_csv` except `URL`, which is passed through raw (a `None` url
would reach the CSV writer as `None` and be serialized as an empty cell, the
same value `getD ""` yields here). -/
def standardRow (p : Product) : Row :=
  [("Product Code", clean_text_for_csv p.product_code),
   ("Product Name", clean_text_for_csv p.product_name),
   ("Model Number", clean_text_for_csv p.model_number),
   ("Description", clean_text_for_csv p.description),
   ("Price", clean_text_for_csv p.price),
   ("Currency", clean_text_for_csv p.currency),
   ("Availability", clean_text_for_csv p.availability),
   ("URL", p.url.getD "")]

/-- Lines 1625-1634: add one specification entry to the row.  The cleaned key
is skipped when empty; a fresh key is appended with its cleaned value; a key
already present in the row (a standard column, or a key that recurred after
cleaning) gets `clean(old) + '; ' + clean(new)` assigned in place. -/
def addSpec (r : Row) (k v : String) : Row :=
  let ck := clean_text_for_csv_str k
  if ck = "" then r
  else if rowHasKey r ck then
    r.map (fun q =>
      if q.1 = ck then (q.1, clean_text_for_csv_str q.2 ++ "; " ++ clean_text_for_csv_str v)
      else q)
  else r ++ [(ck, clean_text_for_csv_str v)]

/-- Lines 1610-1636: one export row per product record. -/
def buildRow (p : Product) : Row :=
  p.specifications.foldl (fun r kv => addSpec r kv.1 kv.2) (standardRow p)

/-- The column names of a row. -/
def rowKeys (r : Row) : List String := r.map Prod.fst

/-- Lines 1638-1641: `all_keys`, the set of keys present in any row. -/
def allKeysF (rows : List Row) : Finset String :=
  rows.foldr (fun r acc => (rowKeys r).toFinset ∪ acc) ∅

/-- Lines 1643-1648: the header — standard fields present in `all_keys`, in
standard order, then the remaining keys sorted lexicographically (Python
`sorted` on `str`; Lean's `String` order is the same code-point
lexicographic order). -/
def fieldnamesOfRows (rows : List Row) : List String :=
  let ak := allKeysF rows
  standardFields.filter (fun k => k ∈ ak) ++
    Finset.sort (· ≤ ·) (ak.filter (fun k => k ∉ standardFields))

/-- The header computed from a record list. -/
def fieldnames (ps : List Product) : List String :=
  fieldnamesOfRows (ps.map buildRow)

/-- Lines 1656-1665: one written CSV line — per header column, the row's
value if the key is present, else the empty string. -/
def materializeRow (fns : List String) (r : Row) : List String :=
  fns.map (fun k => (rowGet r k).getD "")

/-- The written CSV: header plus materialized rows. -/
structure Csv where
  header : List String
  cells : List (List String)
deriving DecidableEq

/-- `save_to_csv` on a list argument (lines 1574-1669), with the record
store threaded explicitly: the result pairs the written table (`none` when
line 1581's `if not products` returns early, writing nothing) with the input
records as they stand after the call.  The loop body only reads each record
(`product.get(...)`, `specs.items()`); every assignment targets the freshly
built `row` dict, so each record passes through unchanged. -/
def save_to_csv (ps : List Product) : Option Csv × List Product :=
  if ps.isEmpty then (none, ps)
  else
    let pairs := ps.map (fun p => (buildRow p, p))
    let rows := pairs.map Prod.fst
    let fns := fieldnamesOfRows rows
    (some ⟨fns, rows.map (materializeRow fns)⟩, pairs.map Prod.snd)

/-! ## Auxiliary predicates and sample data -/

/-- Every key of the map is its own `strip`. -/
def KeysTrimmed (m : SpecMap) : Prop := ∀ kv ∈ m, pyStrip kv.1 = kv.1

/-- "No strategy finds any matching structure": every `find_element` raises,
every `find_elements` returns no elements. -/
def noMatches (d : Doc) : Prop :=
  d.specTableUls = [] ∧
  (∀ t ∈ d.sectionTries, t = SectionTry.notFound) ∧
  (∀ o ∈ d.specTables, o = none) ∧
  (∀ g ∈ d.dlGroups, g = []) ∧
  d.divItems = [] ∧
  d.specUls = [] ∧
  (∀ o ∈ d.accordionTables, o = none) ∧
  d.genericDivTexts = [] ∧
  d.jsonLdScripts = [] ∧
  d.allTables = [] ∧
  d.contentTexts = [] ∧
  d.dataAttrElems = []

/-- The document on which every query comes back empty. -/
def Doc.empty : Doc :=
  { specTableUls := [], sectionTries := [], specTables := [], dlGroups := [],
    divItems := [], specUls := [], accordionTables := [], genericDivTexts := [],
    jsonLdScripts := [], allTables := [], contentTexts := [], dataAttrElems := [] }

/-- A sample record with one specification. -/
def sampleRecordA : Product :=
  { product_code := some "76181-190", product_name := some "Acetone",
    model_number := none, description := none, price := some "10",
    currency := some "USD", availability := none,
    url := some "https://example.test/a", specifications := [("Purity", "99%")] }

/-- A second sample record with a different specification key. -/
def sampleRecordB : Product :=
  { product_code := some "76181-191", product_name := some "Ethanol",
    model_number := none, description := none, price := some "12",
    currency := some "USD", availability := none,
    url := some "https://example.test/b", specifications := [("Color", "clear")] }



/-! ## Helper lemmas about the whitespace primitives -/

theorem replaceCRLF_eq_self : ∀ {l : List Char}, '\r' ∉ l → replaceCRLF l = l := by
  intro l
  induction l with
  | nil => intro _; rfl
  | cons c cs ih =>
    intro h
    rw [replaceCRLF.eq_def]
    split
    · next heq => simp at heq
    · next rest heq =>
      rw [List.cons_eq_cons] at heq
      exact absurd heq.1.symm (List.ne_of_not_mem_cons h)
    · next c' cs' heq =>
      rw [List.cons_eq_cons] at heq
      obtain ⟨h1, h2⟩ := heq
      subst h1; subst h2
      rw [ih (List.not_mem_of_not_mem_cons h)]

theorem replaceNLCR_eq_self {l : List Char} (h1 : '\n' ∉ l) (h2 : '\r' ∉ l) :
    replaceNLCR l = l := by
  induction l with
  | nil => rfl
  | cons c cs ih =>
    have hc1 : ¬ c = '\n' := fun h => h1 (by simp [h])
    have hc2 : ¬ c = '\r' := fun h => h2 (by simp [h])
    have hrest := ih (List.not_mem_of_not_mem_cons h1) (List.not_mem_of_not_mem_cons h2)
    simp only [replaceNLCR, List.map_cons] at hrest ⊢
    rw [if_neg (by simp [hc1, hc2]), hrest]

theorem dropWhile_head_false {p : Char → Bool} :
    ∀ {l : List Char} {c : Char}, (l.dropWhile p).head? = some c → p c = false := by
  intro l
  induction l with
  | nil => intro c h; simp at h
  | cons a as ih =>
    intro c h
    by_cases hp : p a
    · rw [List.dropWhile_cons_of_pos hp] at h; exact ih h
    · rw [List.dropWhile_cons_of_neg hp] at h
      simp at h
      rw [h] at hp
      simpa using hp

theorem dropWhile_eq_self_of_head {p : Char → Bool} {l : List Char}
    (h : ∀ c, l.head? = some c → p c = false) : l.dropWhile p = l := by
  cases l with
  | nil => rfl
  | cons c cs => exact List.dropWhile_cons_of_neg (by simp [h c rfl])

theorem collapseWsAux_space : ∀ (b : Bool) {l : List Char} {c : Char},
    c ∈ collapseWsAux b l → isPySpace c = true → c = ' ' := by
  intro b l
  induction l generalizing b with
  | nil => intro c h; simp [collapseWsAux] at h
  | cons a as ih =>
    intro c h hws
    by_cases ha : isPySpace a
    · rw [collapseWsAux, if_pos ha] at h
      cases b with
      | true => exact ih true h hws
      | false =>
        simp only [Bool.false_eq_true, if_false, List.mem_cons] at h
        cases h with
        | inl h => exact h
        | inr h => exact ih true h hws
    · rw [collapseWsAux, if_neg ha] at h
      rcases List.mem_cons.mp h with h | h
      · subst h; exact absurd hws ha
      · exact ih false h hws

theorem collapseWsAux_true_head : ∀ {l : List Char} {c : Char},
    (collapseWsAux true l).head? = some c → isPySpace c = false := by
  intro l
  induction l with
  | nil => intro c h; simp [collapseWsAux] at h
  | cons a as ih =>
    intro c h
    by_cases ha : isPySpace a
    · rw [collapseWsAux, if_pos ha, if_pos rfl] at h
      exact ih h
    · rw [collapseWsAux, if_neg ha] at h
      simp only [List.head?_cons, Option.some_inj] at h
      rw [← h]
      simpa using ha

theorem collapseWsAux_chain : ∀ (b : Bool) (l : List Char),
    List.Chain' (fun a c => ¬(isPySpace a = true ∧ isPySpace c = true)) (collapseWsAux b l) := by
  intro b l
  induction l generalizing b with
  | nil => simp [collapseWsAux]
  | cons a as ih =>
    by_cases ha : isPySpace a
    · rw [collapseWsAux, if_pos ha]
      cases b with
      | true => exact ih true
      | false =>
        simp only [Bool.false_eq_true, if_false]
        rw [List.chain'_cons']
        refine ⟨?_, ih true⟩
        intro y hy
        intro hcon
        have := collapseWsAux_true_head (l := as) (c := y) (by simpa using hy)
        rw [this] at hcon
        exact absurd hcon.2 (by simp)
    · rw [collapseWsAux, if_neg ha]
      rw [List.chain'_cons']
      refine ⟨?_, ih false⟩
      intro y _ hcon
      exact ha hcon.1

theorem dropTrailingWs_reverse (l : List Char) :
    (dropTrailingWs l).reverse = l.reverse.dropWhile isPySpace := by
  simp [dropTrailingWs]

theorem dropTrailingWs_last {l : List Char} {c : Char}
    (h : (dropTrailingWs l).getLast? = some c) : isPySpace c = false := by
  rw [← List.head?_reverse, dropTrailingWs_reverse] at h
  exact dropWhile_head_false h

theorem dropTrailingWs_isPrefix (l : List Char) : (dropTrailingWs l) <+: l := by
  have h : l.reverse.dropWhile isPySpace <:+ l.reverse := List.dropWhile_suffix _
  obtain ⟨u, hu⟩ := h
  refine ⟨u.reverse, ?_⟩
  have := congrArg List.reverse hu
  simpa [dropTrailingWs] using this

theorem head?_of_isPrefix {l t : List Char} {c : Char} (h : t <+: l)
    (hc : t.head? = some c) : l.head? = some c := by
  obtain ⟨u, hu⟩ := h
  cases t with
  | nil => simp at hc
  | cons x xs =>
    simp only [List.head?_cons, Option.some_inj] at hc
    rw [← hu]
    simpa using hc

theorem pyStripList_head {l : List Char} {c : Char}
    (h : (pyStripList l).head? = some c) : isPySpace c = false := by
  have hp : (pyStripList l) <+: (l.dropWhile isPySpace) := dropTrailingWs_isPrefix _
  exact dropWhile_head_false (head?_of_isPrefix hp h)

theorem pyStripList_last {l : List Char} {c : Char}
    (h : (pyStripList l).getLast? = some c) : isPySpace c = false :=
  dropTrailingWs_last h

theorem pyStripList_subset {l : List Char} : ∀ {c : Char}, c ∈ pyStripList l → c ∈ l := by
  intro c h
  have h1 : c ∈ (l.dropWhile isPySpace) :=
    (dropTrailingWs_isPrefix _).subset h
  exact (List.dropWhile_sublist _).subset h1

theorem pyStripList_chain {R : Char → Char → Prop}
    {l : List Char} (h : List.Chain' R l) : List.Chain' R (pyStripList l) := by
  have h1 : List.Chain' R (l.dropWhile isPySpace) :=
    h.suffix (List.dropWhile_suffix _)
  have h2 : List.Chain' (flip R) (l.dropWhile isPySpace).reverse := by
    rw [List.chain'_reverse]
    simpa [flip] using h1.imp (fun a b hab => hab)
  have h3 : List.Chain' (flip R) ((l.dropWhile isPySpace).reverse.dropWhile isPySpace) :=
    h2.suffix (List.dropWhile_suffix _)
  have h4 : List.Chain' R (pyStripList l) := by
    rw [pyStripList, dropTrailingWs, List.chain'_reverse]
    exact h3
  exact h4

theorem dropTrailingWs_eq_self {l : List Char}
    (h : ∀ c, l.getLast? = some c → isPySpace c = false) : dropTrailingWs l = l := by
  have : l.reverse.dropWhile isPySpace = l.reverse := by
    apply dropWhile_eq_self_of_head
    intro c hc
    rw [List.head?_reverse] at hc
    exact h c hc
  rw [dropTrailingWs, this, List.reverse_reverse]

theorem pyStripList_idem (l : List Char) : pyStripList (pyStripList l) = pyStripList l := by
  have h1 : (pyStripList l).dropWhile isPySpace = pyStripList l := by
    apply dropWhile_eq_self_of_head
    intro c hc
    exact pyStripList_head hc
  rw [pyStripList, h1]
  apply dropTrailingWs_eq_self
  intro c hc
  exact pyStripList_last hc

theorem pyStrip_idem (s : String) : pyStrip (pyStrip s) = pyStrip s := by
  simp [pyStrip, pyStripList_idem]


theorem collapseWsAux_true_eq_false {l : List Char}
    (h : ∀ c, l.head? = some c → isPySpace c = false) :
    collapseWsAux true l = collapseWsAux false l := by
  cases l with
  | nil => rfl
  | cons c cs =>
    have hc := h c rfl
    rw [collapseWsAux, collapseWsAux, if_neg (by simp [hc]), if_neg (by simp [hc])]

theorem collapseWs_eq_self : ∀ {l : List Char},
    (∀ c ∈ l, isPySpace c = true → c = ' ') →
    List.Chain' (fun a b => ¬(a = ' ' ∧ b = ' ')) l →
    l.getLast? ≠ some ' ' →
    collapseWs l = l := by
  intro l
  induction l with
  | nil => intro _ _ _; rfl
  | cons c cs ih =>
    intro hsp hch hlast
    by_cases hc : isPySpace c
    · have hceq : c = ' ' := hsp c (by simp) hc
      subst hceq
      cases cs with
      | nil => exact absurd rfl hlast
      | cons d ds =>
        have hd_ne : ¬ d = ' ' := fun hd => (List.chain'_cons.mp hch).1 ⟨rfl, hd⟩
        have hd_nws : isPySpace d = false := by
          by_cases hws : isPySpace d
          · exact absurd (hsp d (by simp) hws) hd_ne
          · simpa using hws
        have htail : collapseWsAux false (d :: ds) = d :: ds := by
          apply ih
          · intro x hx hxs
            exact hsp x (List.mem_cons_of_mem _ hx) hxs
          · exact hch.tail
          · rw [← List.getLast?_cons_cons]
            exact hlast
        rw [collapseWs, collapseWsAux, if_pos (by decide)]
        simp only [Bool.false_eq_true, if_false]
        rw [collapseWsAux_true_eq_false (fun x hx => by
          simp only [List.head?_cons, Option.some_inj] at hx
          rw [hx] at hd_nws
          exact hd_nws)]
        rw [htail]
    · rw [collapseWs, collapseWsAux, if_neg hc]
      have htail : collapseWsAux false cs = cs := by
        cases cs with
        | nil => rfl
        | cons d ds =>
          apply ih
          · intro x hx hxs
            exact hsp x (List.mem_cons_of_mem _ hx) hxs
          · exact hch.tail
          · rw [← List.getLast?_cons_cons]
            exact hlast
      rw [htail]

/-- The four normal-form facts about the output of `clean_text_for_csv_str`:
every whitespace character is a plain space, no two spaces are adjacent, and
neither end is a space. -/
theorem clean_normal_form (s : String) :
    (∀ c ∈ (clean_text_for_csv_str s).data, isPySpace c = true → c = ' ') ∧
    List.Chain' (fun a b => ¬(a = ' ' ∧ b = ' ')) (clean_text_for_csv_str s).data ∧
    (clean_text_for_csv_str s).data.head? ≠ some ' ' ∧
    (clean_text_for_csv_str s).data.getLast? ≠ some ' ' := by
  have hdata : (clean_text_for_csv_str s).data
      = pyStripList (collapseWs (replaceNLCR (replaceCRLF s.data))) := rfl
  refine ⟨?_, ?_, ?_, ?_⟩
  · intro c hc hcs
    rw [hdata] at hc
    exact collapseWsAux_space false (pyStripList_subset hc) hcs
  · rw [hdata]
    apply pyStripList_chain
    exact (collapseWsAux_chain false _).imp (fun a b hab h =>
      hab ⟨by rw [h.1]; decide, by rw [h.2]; decide⟩)
  · rw [hdata]
    intro hcon
    have := pyStripList_head hcon
    exact absurd this (by decide)
  · rw [hdata]
    intro hcon
    have := pyStripList_last hcon
    exact absurd this (by decide)

/-- C10 — the normalizer is idempotent: a value that is already the output
of `clean_text_for_csv` is unchanged by a second normalization, so the
re-cleaning of an existing cell in the collision-append path (line 1634)
never alters it. -/
theorem clean_text_for_csv_idem (s : String) :
    clean_text_for_csv_str (clean_text_for_csv_str s) = clean_text_for_csv_str s := by
  obtain ⟨hsp, hch, hhead, hlast⟩ := clean_normal_form s
  set r := clean_text_for_csv_str s with hr
  have hnr : '\r' ∉ r.data := fun hm => absurd (hsp '\r' hm (by decide)) (by decide)
  have hnn : '\n' ∉ r.data := fun hm => absurd (hsp '\n' hm (by decide)) (by decide)
  have h1 : replaceCRLF r.data = r.data := replaceCRLF_eq_self hnr
  have h2 : replaceNLCR r.data = r.data := replaceNLCR_eq_self hnn hnr
  have h3 : collapseWs r.data = r.data := collapseWs_eq_self hsp hch hlast
  have h4 : pyStripList r.data = r.data := by
    rw [pyStripList]
    rw [dropWhile_eq_self_of_head (fun c hc => by
      by_cases hws : isPySpace c
      · have hceq : c = ' ' := hsp c (List.mem_of_mem_head? hc) hws
        subst hceq
        exact absurd hc hhead
      · simpa using hws)]
    apply dropTrailingWs_eq_self
    intro c hc
    by_cases hws : isPySpace c
    · have hceq : c = ' ' := hsp c (List.mem_of_mem_getLast? hc) hws
      subst hceq
      exact absurd hc hlast
    · simpa using hws
  show String.mk (pyStripList (collapseWs (replaceNLCR (replaceCRLF r.data)))) = r
  rw [h1, h2, h3, h4]


/-! ## Key-trimming invariants of the extraction strategies -/

theorem foldl_trimmed {α : Type} {f : SpecMap → α → SpecMap}
    (hf : ∀ (m : SpecMap) (a : α), KeysTrimmed m → KeysTrimmed (f m a)) :
    ∀ (l : List α) {m : SpecMap}, KeysTrimmed m → KeysTrimmed (l.foldl f m) := by
  intro l
  induction l with
  | nil => intro m h; exact h
  | cons a as ih => intro m h; exact ih (hf m a h)

theorem dictInsert_trimmed {m : SpecMap} {k v : String} (hm : KeysTrimmed m)
    (hk : pyStrip k = k) : KeysTrimmed (dictInsert m k v) := by
  intro kv hkv
  rw [dictInsert] at hkv
  split at hkv
  · rcases List.mem_map.mp hkv with ⟨p, hp, hpe⟩
    by_cases hpk : p.1 = k
    · rw [if_pos hpk] at hpe; rw [← hpe]; exact hk
    · rw [if_neg hpk] at hpe; rw [← hpe]; exact hm p hp
  · rcases List.mem_append.mp hkv with h | h
    · exact hm kv h
    · rw [List.mem_singleton] at h
      rw [h]
      exact hk

theorem specLiStep_trimmed {m : SpecMap} (li : SpecLi) (hm : KeysTrimmed m) :
    KeysTrimmed (specLiStep m li) := by
  unfold specLiStep
  split
  · try dsimp only
    split
    · split
      · exact dictInsert_trimmed hm (pyStrip_idem _)
      · exact hm
    · split
      · exact dictInsert_trimmed hm (pyStrip_idem _)
      · exact hm
  · exact hm

theorem method0_trimmed : ∀ (uls : List (List SpecLi)) {m : SpecMap},
    KeysTrimmed m → KeysTrimmed (method0 uls m) := by
  intro uls
  induction uls with
  | nil => intro m hm; exact hm
  | cons ul rest ih =>
    intro m hm
    rw [method0]
    have hfold : KeysTrimmed (ul.foldl specLiStep m) :=
      foldl_trimmed (fun m li hm => specLiStep_trimmed li hm) ul hm
    try dsimp only
    split
    · exact ih hfold
    · exact hfold

theorem sectionRowStep_trimmed {m : SpecMap} (cells : List String) (hm : KeysTrimmed m) :
    KeysTrimmed (sectionRowStep m cells) := by
  unfold sectionRowStep
  split
  · try dsimp only
    split
    · exact dictInsert_trimmed hm (pyStrip_idem _)
    · exact hm
  · exact hm

theorem dlStep_trimmed {m : SpecMap} (dl : DlData) (hm : KeysTrimmed m) :
    KeysTrimmed (dlStep m dl) := by
  unfold dlStep
  apply foldl_trimmed ?_ _ hm
  intro m p hm
  try dsimp only
  split
  · exact dictInsert_trimmed hm (pyStrip_idem _)
  · exact hm

theorem sectionLineStep_trimmed {m : SpecMap} (line : String) (hm : KeysTrimmed m) :
    KeysTrimmed (sectionLineStep m line) := by
  unfold sectionLineStep
  try dsimp only
  split
  · split
    · exact dictInsert_trimmed hm (pyStrip_idem _)
    · exact hm
  · split
    · split
      · exact dictInsert_trimmed hm (pyStrip_idem _)
      · exact hm
    · exact hm

theorem siblingStep_trimmed {m : SpecMap} (t : String) (hm : KeysTrimmed m) :
    KeysTrimmed (siblingStep m t) := by
  unfold siblingStep
  try dsimp only
  split
  · exact hm
  · apply foldl_trimmed ?_ _ hm
    intro m line hm
    try dsimp only
    split
    · split
      · exact dictInsert_trimmed hm (pyStrip_idem _)
      · exact hm
    · exact hm

theorem sectionProcess_trimmed {m : SpecMap} (t : SectionTry) (hm : KeysTrimmed m) :
    KeysTrimmed (sectionProcess m t) := by
  cases t with
  | notFound => exact hm
  | withParent tables dls text =>
    unfold sectionProcess
    try dsimp only
    have h1 : KeysTrimmed (tables.foldl (fun m t => t.foldl sectionRowStep m) m) :=
      foldl_trimmed (fun m t hm =>
        foldl_trimmed (fun m cells hm => sectionRowStep_trimmed cells hm) t hm) tables hm
    split
    · have h2 := foldl_trimmed (fun m dl hm => dlStep_trimmed dl hm) dls h1
      split
      · exact foldl_trimmed (fun m line hm => sectionLineStep_trimmed line hm) _ h2
      · exact h2
    · exact h1
  | noParent siblingTexts =>
    unfold sectionProcess
    exact foldl_trimmed (fun m t hm => siblingStep_trimmed t hm) _ hm

theorem sectionScan_cons_withParent (tables : List Table) (dls : List DlData)
    (text : String) (rest : List SectionTry) (m : SpecMap) :
    sectionScan (SectionTry.withParent tables dls text :: rest) m =
      (if (sectionProcess m (SectionTry.withParent tables dls text)).isEmpty then
        ((sectionScan rest (sectionProcess m (SectionTry.withParent tables dls text))).1, true)
      else (sectionProcess m (SectionTry.withParent tables dls text), true)) := rfl

theorem sectionScan_cons_noParent (ts : List String) (rest : List SectionTry) (m : SpecMap) :
    sectionScan (SectionTry.noParent ts :: rest) m =
      (if (sectionProcess m (SectionTry.noParent ts)).isEmpty then
        ((sectionScan rest (sectionProcess m (SectionTry.noParent ts))).1, true)
      else (sectionProcess m (SectionTry.noParent ts), true)) := rfl

theorem sectionScan_trimmed : ∀ (tries : List SectionTry) {m : SpecMap},
    KeysTrimmed m → KeysTrimmed (sectionScan tries m).1 := by
  intro tries
  induction tries with
  | nil => intro m hm; exact hm
  | cons t rest ih =>
    intro m hm
    cases t with
    | notFound => exact ih hm
    | withParent tables dls text =>
      rw [sectionScan_cons_withParent]
      have hp := sectionProcess_trimmed (SectionTry.withParent tables dls text) hm
      split
      · exact ih hp
      · exact hp
    | noParent siblingTexts =>
      rw [sectionScan_cons_noParent]
      have hp := sectionProcess_trimmed (SectionTry.noParent siblingTexts) hm
      split
      · exact ih hp
      · exact hp

theorem m1RowStep_trimmed {m : SpecMap} (cells : List String) (hm : KeysTrimmed m) :
    KeysTrimmed (m1RowStep m cells) := by
  unfold m1RowStep
  split
  · try dsimp only
    split
    · exact dictInsert_trimmed hm (pyStrip_idem _)
    · exact hm
  · exact hm

theorem method1_trimmed : ∀ (ts : List (Option Table)) {m : SpecMap},
    KeysTrimmed m → KeysTrimmed (method1 ts m) := by
  intro ts
  induction ts with
  | nil => intro m hm; exact hm
  | cons o rest ih =>
    intro m hm
    cases o with
    | none => exact ih hm
    | some t =>
      rw [method1]
      have hfold : KeysTrimmed (t.foldl m1RowStep m) :=
        foldl_trimmed (fun m cells hm => m1RowStep_trimmed cells hm) t hm
      try dsimp only
      split
      · exact ih hfold
      · exact hfold

theorem method2_trimmed : ∀ (gs : List (List DlData)) {m : SpecMap},
    KeysTrimmed m → KeysTrimmed (method2 gs m) := by
  intro gs
  induction gs with
  | nil => intro m hm; exact hm
  | cons dls rest ih =>
    intro m hm
    rw [method2]
    have hfold : KeysTrimmed (dls.foldl dlStep m) :=
      foldl_trimmed (fun m dl hm => dlStep_trimmed dl hm) dls hm
    try dsimp only
    split
    · exact ih hfold
    · exact hfold

theorem method3_trimmed (items : List (List String × List String)) {m : SpecMap}
    (hm : KeysTrimmed m) : KeysTrimmed (method3 items m) := by
  apply foldl_trimmed ?_ _ hm
  intro m item hm
  try dsimp only
  split
  · try dsimp only
    split
    · exact dictInsert_trimmed hm (pyStrip_idem _)
    · exact hm
  · exact hm

theorem m4LiStep_trimmed {m : SpecMap} (t : String) (hm : KeysTrimmed m) :
    KeysTrimmed (m4LiStep m t) := by
  unfold m4LiStep
  try dsimp only
  split
  · split
    · exact dictInsert_trimmed hm (pyStrip_idem _)
    · exact hm
  · split
    · split
      · exact dictInsert_trimmed hm (pyStrip_idem _)
      · exact hm
    · exact hm

theorem method4_trimmed (uls : List (List String)) {m : SpecMap} (hm : KeysTrimmed m) :
    KeysTrimmed (method4 uls m) := by
  apply foldl_trimmed ?_ _ hm
  intro m lis hm
  exact foldl_trimmed (fun m t hm => m4LiStep_trimmed t hm) lis hm

theorem method5_trimmed (sections : List (Option Table)) {m : SpecMap} (hm : KeysTrimmed m) :
    KeysTrimmed (method5 sections m) := by
  apply foldl_trimmed ?_ _ hm
  intro m sec hm
  cases sec with
  | none => exact hm
  | some rows =>
    apply foldl_trimmed ?_ _ hm
    intro m cells hm
    try dsimp only
    split
    · try dsimp only
      split
      · exact dictInsert_trimmed hm (pyStrip_idem _)
      · exact hm
    · exact hm

theorem method6_trimmed (divTexts : List String) {m : SpecMap} (hm : KeysTrimmed m) :
    KeysTrimmed (method6 divTexts m) := by
  apply foldl_trimmed ?_ _ hm
  intro m t hm
  apply foldl_trimmed ?_ _ hm
  intro m line hm
  try dsimp only
  split
  · split
    · exact dictInsert_trimmed hm (pyStrip_idem _)
    · exact hm
  · exact hm

theorem m9LineStep_trimmed {m : SpecMap} (line : String) (hm : KeysTrimmed m) :
    KeysTrimmed (m9LineStep m line) := by
  unfold m9LineStep
  try dsimp only
  split
  · split
    · split
      · exact hm
      · exact dictInsert_trimmed hm (pyStrip_idem _)
    · exact hm
  · split
    · split
      · exact dictInsert_trimmed hm (pyStrip_idem _)
      · exact hm
    · exact hm

theorem method8_cons (t : Table) (rest : List Table) (m : SpecMap) :
    method8 (t :: rest) m =
      (if t.length ≥ 2 then
        (if (t.foldl
            (fun m cells =>
              match cells with
              | c0 :: c1 :: _ =>
                let key := pyStrip c0
                let val := pyStrip c1
                if key ≠ "" ∧ val ≠ "" ∧ 0 < key.length ∧ key.length < 100 ∧
                    pyLower key ∉ ["home", "products", "services", "about", "contact", "menu"] then
                  dictInsert m key val
                else m
              | _ => m) m).isEmpty then
          method8 rest (t.foldl
            (fun m cells =>
              match cells with
              | c0 :: c1 :: _ =>
                let key := pyStrip c0
                let val := pyStrip c1
                if key ≠ "" ∧ val ≠ "" ∧ 0 < key.length ∧ key.length < 100 ∧
                    pyLower key ∉ ["home", "products", "services", "about", "contact", "menu"] then
                  dictInsert m key val
                else m
              | _ => m) m)
        else (t.foldl
            (fun m cells =>
              match cells with
              | c0 :: c1 :: _ =>
                let key := pyStrip c0
                let val := pyStrip c1
                if key ≠ "" ∧ val ≠ "" ∧ 0 < key.length ∧ key.length < 100 ∧
                    pyLower key ∉ ["home", "products", "services", "about", "contact", "menu"] then
                  dictInsert m key val
                else m
              | _ => m) m))
      else method8 rest m) := rfl

theorem method8_trimmed : ∀ (ts : List Table) {m : SpecMap},
    KeysTrimmed m → KeysTrimmed (method8 ts m) := by
  intro ts
  induction ts with
  | nil => intro m hm; exact hm
  | cons t rest ih =>
    intro m hm
    rw [method8_cons]
    have hfold : KeysTrimmed (t.foldl
        (fun m cells =>
          match cells with
          | c0 :: c1 :: _ =>
            let key := pyStrip c0
            let val := pyStrip c1
            if key ≠ "" ∧ val ≠ "" ∧ 0 < key.length ∧ key.length < 100 ∧
                pyLower key ∉ ["home", "products", "services", "about", "contact", "menu"] then
              dictInsert m key val
            else m
          | _ => m) m) := by
      apply foldl_trimmed ?_ _ hm
      intro m cells hm
      try dsimp only
      split
      · try dsimp only
        split
        · exact dictInsert_trimmed hm (pyStrip_idem _)
        · exact hm
      · exact hm
    split
    · split
      · exact ih hfold
      · exact hfold
    · exact ih hm

theorem method9_trimmed (texts : List String) {m : SpecMap} (hm : KeysTrimmed m) :
    KeysTrimmed (method9 texts m) := by
  apply foldl_trimmed ?_ _ hm
  intro m t hm
  exact foldl_trimmed (fun m line hm => m9LineStep_trimmed line hm) _ hm

theorem guardedStage_trimmed {f : SpecMap → SpecMap}
    (hf : ∀ {m : SpecMap}, KeysTrimmed m → KeysTrimmed (f m)) {m : SpecMap}
    (hm : KeysTrimmed m) : KeysTrimmed (guardedStage f m) := by
  unfold guardedStage
  split
  · exact hf hm
  · exact hm


/-! ## Behaviour on documents with no matching structures -/

theorem sectionScan_all_notFound : ∀ {tries : List SectionTry},
    (∀ t ∈ tries, t = SectionTry.notFound) → ∀ (m : SpecMap), sectionScan tries m = (m, false) := by
  intro tries
  induction tries with
  | nil => intro _ m; rfl
  | cons t rest ih =>
    intro h m
    have ht : t = SectionTry.notFound := h t (by simp)
    subst ht
    exact ih (fun x hx => h x (List.mem_cons_of_mem _ hx)) m

theorem method1_all_none : ∀ {ts : List (Option Table)},
    (∀ o ∈ ts, o = none) → ∀ (m : SpecMap), method1 ts m = m := by
  intro ts
  induction ts with
  | nil => intro _ m; rfl
  | cons o rest ih =>
    intro h m
    have ho : o = none := h o (by simp)
    subst ho
    exact ih (fun x hx => h x (List.mem_cons_of_mem _ hx)) m

theorem method2_all_nil : ∀ {gs : List (List DlData)},
    (∀ g ∈ gs, g = []) → ∀ (m : SpecMap), method2 gs m = m := by
  intro gs
  induction gs with
  | nil => intro _ m; rfl
  | cons g rest ih =>
    intro h m
    have hg : g = [] := h g (by simp)
    subst hg
    rw [method2]
    have hrest := ih (fun x hx => h x (List.mem_cons_of_mem _ hx))
    simp only [List.foldl_nil]
    split
    · exact hrest m
    · rfl

theorem method5_all_none : ∀ {ss : List (Option Table)},
    (∀ o ∈ ss, o = none) → ∀ (m : SpecMap), method5 ss m = m := by
  intro ss
  induction ss with
  | nil => intro _ m; rfl
  | cons o rest ih =>
    intro h m
    have ho : o = none := h o (by simp)
    subst ho
    rw [method5]
    simp only [List.foldl_cons]
    exact ih (fun x hx => h x (List.mem_cons_of_mem _ hx)) m

theorem guardedStage_of_eq {f : SpecMap → SpecMap}
    (hf : ∀ m, f m = m) (m : SpecMap) : guardedStage f m = m := by
  unfold guardedStage
  split
  · exact hf m
  · rfl

/-! ## Claim theorems -/

/-- C1 — code-bug evidence.  On a document where the structured-list strategy
(strategy 1, the `ul.spec-table` reader) yields the non-empty map
`{"Purity": "99%"}` and a labeled-section selector matches a parent holding a
table row `Color | red`, `extract` does NOT return strategy 1's map alone: the
labeled-section scan (whose guard at line 988 covers only the
`spec_section_found` initialization, not the loop) merges its table pair into
the result.  The code's own comments (lines 982-983, 987) state the intended
short-circuit. -/
theorem extract_merges_section_table_after_spec_table :
    method0 [[⟨["Purity:"], ["99%"]⟩]] [] = [("Purity", "99%")] ∧
    extractSpecs { Doc.empty with
        specTableUls := [[⟨["Purity:"], ["99%"]⟩]],
        sectionTries := [SectionTry.withParent [[["Color", "red"]]] [] ""] } =
      [("Purity", "99%"), ("Color", "red")] := by
  constructor
  · decide
  · decide

/-- C2 — counterexample.  Keys in the returned map are neither always free of
a trailing colon (strategy 1 removes only one colon: a `name-col` text `A::`
yields the key `A:`) nor always trimmed (a JSON-LD field key `" k "` is
stored verbatim by strategy 8 of the chain). -/
theorem spec_keys_colon_and_trim_counterexample :
    extractSpecs { Doc.empty with specTableUls := [[⟨["A::"], ["1"]⟩]] } = [("A:", "1")] ∧
    pyEndsWith "A:" ":" = true ∧
    extractSpecs { Doc.empty with
        jsonLdScripts := [JsonLd.item [(" k ", JVal.jstr "v")]] } = [(" k ", "v")] ∧
    pyStrip " k " ≠ " k " := by
  refine ⟨by decide, by decide, by decide, by decide⟩

/-- C2 — amended.  Every key the extractor stores is trimmed of surrounding
whitespace, provided the document feeds nothing to the JSON-LD strategy or
the data-attribute strategy (the two paths that store keys verbatim);
trailing colons, however, can survive: only the structured-list strategy
removes a colon, and it removes exactly one. -/
theorem extract_keys_trimmed (d : Doc)
    (h7 : d.jsonLdScripts = []) (h10 : d.dataAttrElems = []) :
    ∀ kv ∈ extractSpecs d, pyStrip kv.1 = kv.1 := by
  have h0 : KeysTrimmed (method0 d.specTableUls []) :=
    method0_trimmed _ (fun kv h => absurd h (List.not_mem_nil kv))
  have hsec : KeysTrimmed (sectionScan d.sectionTries (method0 d.specTableUls [])).1 :=
    sectionScan_trimmed _ h0
  show KeysTrimmed (extractSpecs d)
  unfold extractSpecs
  dsimp only
  split
  · exact hsec
  · apply guardedStage_trimmed (fun {m} hm => by rw [h10]; exact hm)
    apply guardedStage_trimmed (fun {m} hm => method9_trimmed _ hm)
    apply guardedStage_trimmed (fun {m} hm => method8_trimmed _ hm)
    apply guardedStage_trimmed (fun {m} hm => by rw [h7]; exact hm)
    apply guardedStage_trimmed (fun {m} hm => method6_trimmed _ hm)
    apply guardedStage_trimmed (fun {m} hm => method5_trimmed _ hm)
    apply guardedStage_trimmed (fun {m} hm => method4_trimmed _ hm)
    apply guardedStage_trimmed (fun {m} hm => method3_trimmed _ hm)
    apply guardedStage_trimmed (fun {m} hm => method2_trimmed _ hm)
    exact method1_trimmed _ hsec

/-- C2 — witness for `extract_keys_trimmed` at a concrete document. -/
theorem extract_keys_trimmed_witness :
    pyStrip "Purity" = "Purity" :=
  extract_keys_trimmed
    { Doc.empty with specTableUls := [[⟨[" Purity : "], ["99%"]⟩]] }
    rfl rfl ("Purity", "99%") (by decide)

/-- C3 — counterexample.  On an empty record list `save_to_csv` does not
produce an empty export table: it returns early with `None` (line 1581) and
writes no table at all. -/
theorem save_to_csv_empty_counterexample :
    (save_to_csv []).1 = none ∧
    (save_to_csv []).1 ≠ some { header := [], cells := [] } := by
  refine ⟨rfl, by decide⟩

/-- C3 — amended.  An empty input record sequence makes `save_to_csv` return
`None` without writing a table and without raising; the input store is left
untouched. -/
theorem save_to_csv_empty_no_table : save_to_csv ([] : List Product) = (none, []) := rfl

/-- C4 — For every document on which no strategy finds any matching
structure, the specification map `extract` returns is empty; as a total Lean
function the embedded extractor returns on every input, mirroring the
source's outer `try/except` (line 1485), which converts any exception into a
normal return. -/
theorem extract_no_matches_empty (d : Doc) (h : noMatches d) : extractSpecs d = [] := by
  obtain ⟨h1, h2, h3, h4, h5, h6, h7, h8, h9, h10, h11, h12⟩ := h
  have hs0 : method0 d.specTableUls [] = [] := by rw [h1]; rfl
  have hsec : sectionScan d.sectionTries [] = ([], false) := sectionScan_all_notFound h2 []
  have hm1 : method1 d.specTables [] = [] := method1_all_none h3 []
  have g2 : guardedStage (method2 d.dlGroups) [] = [] := method2_all_nil h4 []
  have g3 : guardedStage (method3 d.divItems) [] = [] := by
    show method3 d.divItems [] = []
    rw [h5]; rfl
  have g4 : guardedStage (method4 d.specUls) [] = [] := by
    show method4 d.specUls [] = []
    rw [h6]; rfl
  have g5 : guardedStage (method5 d.accordionTables) [] = [] := method5_all_none h7 []
  have g6 : guardedStage (method6 d.genericDivTexts) [] = [] := by
    show method6 d.genericDivTexts [] = []
    rw [h8]; rfl
  have g7 : guardedStage (method7 d.jsonLdScripts) [] = [] := by
    show method7 d.jsonLdScripts [] = []
    rw [h9]; rfl
  have g8 : guardedStage (method8 d.allTables) [] = [] := by
    show method8 d.allTables [] = []
    rw [h10]; rfl
  have g9 : guardedStage (method9 d.contentTexts) [] = [] := by
    show method9 d.contentTexts [] = []
    rw [h11]; rfl
  have g10 : guardedStage (method10 d.dataAttrElems) [] = [] := by
    show method10 d.dataAttrElems [] = []
    rw [h12]; rfl
  unfold extractSpecs
  dsimp only
  rw [hs0, hsec]
  dsimp only
  rw [if_neg (by simp)]
  rw [hm1, g2, g3, g4, g5, g6, g7, g8, g9, g10]

/-- C4 — witness: the all-empty document satisfies `noMatches` and extracts
the empty map. -/
theorem extract_no_matches_empty_witness : extractSpecs Doc.empty = [] :=
  extract_no_matches_empty Doc.empty
    ⟨rfl, by simp [Doc.empty], by simp [Doc.empty], by simp [Doc.empty], rfl, rfl,
     by simp [Doc.empty], rfl, rfl, rfl, rfl, rfl⟩

/-- C7 — counterexample.  A free-text line whose key contains the commerce
stop term `price` IS admitted when the line splits on `" - "`: the stop-term
check (line 1409) sits only in the colon branch, not in the dash branch
(lines 1411-1416). -/
theorem m9_stop_term_dash_admitted :
    extractSpecs { Doc.empty with contentTexts := ["price - 5"] } = [("price", "5")] ∧
    hasSkipWord "price" = true := by
  refine ⟨by decide, by decide⟩


/-- C7 — amended characterization of one line of the free-text fallback
("Method 9", lines 1399-1416).  A line either contributes nothing, or it
contributes exactly one pair whose trimmed key and value are non-empty with
`2 < len(key) < 50` and `len(value) < 200`, obtained by splitting the
stripped line at a unique colon — in which case the key passes the
commerce-stop-term check — or, failing the colon test, at a unique `" - "` —
in which case, as in the source, no stop-term check is applied. -/
theorem m9_admission (m : SpecMap) (rawLine : String) :
    m9LineStep m rawLine = m ∨
    ∃ k v, m9LineStep m rawLine = dictInsert m k v ∧
      k ≠ "" ∧ v ≠ "" ∧ 2 < k.length ∧ k.length < 50 ∧ v.length < 200 ∧
      pyStrip k = k ∧ pyStrip v = v ∧
      ((k = pyStrip (pySplitOnce (pyStrip rawLine) ":").1 ∧
        v = pyStrip (pySplitOnce (pyStrip rawLine) ":").2 ∧
        (pySplit (pyStrip rawLine) ":").length = 2 ∧
        hasSkipWord k = false) ∨
       (k = pyStrip (pySplitOnce (pyStrip rawLine) " - ").1 ∧
        v = pyStrip (pySplitOnce (pyStrip rawLine) " - ").2 ∧
        (pySplit (pyStrip rawLine) " - ").length = 2 ∧
        ¬(pyContainsChar (pyStrip rawLine) ':' = true ∧
          (pySplit (pyStrip rawLine) ":").length = 2))) := by
  unfold m9LineStep
  dsimp only
  split
  · next hcolon =>
    split
    · next hbounds =>
      split
      · left; rfl
      · next hskip =>
        right
        exact ⟨_, _, rfl, hbounds.1, hbounds.2.1, hbounds.2.2.1, hbounds.2.2.2.1,
          hbounds.2.2.2.2, pyStrip_idem _, pyStrip_idem _,
          Or.inl ⟨rfl, rfl, hcolon.2, by simpa using hskip⟩⟩
    · left; rfl
  · next hncolon =>
    split
    · next hdash =>
      split
      · next hbounds =>
        right
        exact ⟨_, _, rfl, hbounds.1, hbounds.2.1, hbounds.2.2.1, hbounds.2.2.2.1,
          hbounds.2.2.2.2, pyStrip_idem _, pyStrip_idem _,
          Or.inr ⟨rfl, rfl, hdash.2, hncolon⟩⟩
      · left; rfl
    · left; rfl

theorem find?_map_collision (ck nv : String) :
    ∀ {r : Row} {q0 : String × String},
      r.find? (fun q => q.1 = ck) = some q0 →
      ((r.map (fun q =>
          if q.1 = ck then (q.1, clean_text_for_csv_str q.2 ++ "; " ++ nv) else q)).find?
        (fun q => q.1 = ck)) =
        some (q0.1, clean_text_for_csv_str q0.2 ++ "; " ++ nv) := by
  intro r
  induction r with
  | nil => intro q0 h; simp at h
  | cons q rest ih =>
    intro q0 h
    by_cases hq : q.1 = ck
    · rw [List.find?_cons_of_pos _ (by simpa using hq)] at h
      rw [Option.some_inj] at h
      subst h
      rw [List.map_cons, if_pos hq, List.find?_cons_of_pos _ (by simpa using hq)]
    · rw [List.find?_cons_of_neg _ (by simpa using hq)] at h
      rw [List.map_cons, if_neg hq, List.find?_cons_of_neg _ (by simpa using hq)]
      exact ih h

/-- C6 — When a normalized specification key collides with a column already
present in the row (a standard column, or a specification key that recurred
after normalization), `save_to_csv` does not overwrite the cell: the new
normalized value is appended to the existing cell joined by `"; "`. -/
theorem addSpec_appends_on_collision (r : Row) (k v o : String)
    (hk : clean_text_for_csv_str k ≠ "")
    (ho : rowGet r (clean_text_for_csv_str k) = some o) :
    rowGet (addSpec r k v) (clean_text_for_csv_str k) =
      some (clean_text_for_csv_str o ++ "; " ++ clean_text_for_csv_str v) := by
  rw [rowGet] at ho
  rcases Option.map_eq_some'.mp ho with ⟨q0, hq0, hsnd⟩
  have hq0k : q0.1 = clean_text_for_csv_str k := by
    have hp := List.find?_some hq0
    simpa using hp
  have hmem : q0 ∈ r := List.mem_of_find?_eq_some hq0
  have hhas : rowHasKey r (clean_text_for_csv_str k) = true := by
    rw [rowHasKey, List.any_eq_true]
    exact ⟨q0, hmem, by simpa using hq0k⟩
  rw [addSpec]
  rw [if_neg hk, if_pos hhas, rowGet]
  rw [find?_map_collision _ _ hq0]
  rw [Option.map_some']
  rw [hsnd]

/-- C6 — witness: a record whose specification key `Price` collides with the
standard `Price` column gets `"10 USD; 5"` in that cell. -/
theorem addSpec_appends_on_collision_witness :
    rowGet (addSpec [("Price", "10 USD")] "Price" "5")
        (clean_text_for_csv_str "Price") = some ("10 USD" ++ "; " ++ "5") :=
  addSpec_appends_on_collision [("Price", "10 USD")] "Price" "5" "10 USD"
    (by decide) (by decide)

/-- C9 — `save_to_csv` never mutates its input records: the record store
threaded through the embedded call comes back equal to the input.  In the
source the loop body only reads each record (`product.get(...)`,
`specs.items()`); every assignment targets the freshly built `row` dict. -/
theorem save_to_csv_reads_only (ps : List Product) : (save_to_csv ps).2 = ps := by
  unfold save_to_csv
  split
  · rfl
  · dsimp only
    rw [List.map_map]
    show List.map (fun p : Product => p) ps = ps
    exact List.map_id' ps


/-! ## The normalizer only rewrites whitespace: non-whitespace characters are
preserved in order -/

theorem replaceCRLF_filter : ∀ (l : List Char),
    (replaceCRLF l).filter (fun c => !isPySpace c) = l.filter (fun c => !isPySpace c) := by
  intro l
  induction l using replaceCRLF.induct with
  | case1 => rfl
  | case2 rest ih =>
    rw [replaceCRLF]
    rw [List.filter_cons, List.filter_cons, List.filter_cons]
    simp only [show (!isPySpace ' ') = false from by decide,
      show (!isPySpace '\r') = false from by decide,
      show (!isPySpace '\n') = false from by decide, Bool.false_eq_true, if_false]
    exact ih
  | case3 c rest hne ih =>
    have hstep : replaceCRLF (c :: rest) = c :: replaceCRLF rest := by
      rw [replaceCRLF.eq_def]
      split
      · next heq => simp at heq
      · next r heq =>
        rw [List.cons_eq_cons] at heq
        exact (hne r heq.1 heq.2).elim
      · next c' cs' heq =>
        rw [List.cons_eq_cons] at heq
        rw [heq.1, heq.2]
    rw [hstep, List.filter_cons, List.filter_cons]
    split
    · rw [ih]
    · exact ih

theorem filter_map_ws {f : Char → Char}
    (hid : ∀ c, isPySpace c = false → f c = c)
    (hws : ∀ c, isPySpace c = true → isPySpace (f c) = true) :
    ∀ l : List Char, (l.map f).filter (fun c => !isPySpace c) = l.filter (fun c => !isPySpace c) := by
  intro l
  induction l with
  | nil => rfl
  | cons c cs ih =>
    rw [List.map_cons, List.filter_cons, List.filter_cons]
    by_cases hc : isPySpace c
    · rw [if_neg (by simp [hws c hc]), if_neg (by simpa using hc)]
      exact ih
    · rw [hid c (by simpa using hc)]
      split
      · rw [ih]
      · exact ih

theorem replaceNLCR_filter (l : List Char) :
    (replaceNLCR l).filter (fun c => !isPySpace c) = l.filter (fun c => !isPySpace c) := by
  apply filter_map_ws
  · intro c hc
    have h1 : ¬ (c = '\n' || c = '\r') = true := by
      intro hcon
      rcases Bool.or_eq_true_iff.mp hcon with h | h
      · rw [show c = '\n' from by simpa using h] at hc
        simp [isPySpace] at hc
      · rw [show c = '\r' from by simpa using h] at hc
        simp [isPySpace] at hc
    rw [if_neg h1]
  · intro c hc
    by_cases h1 : (c = '\n' || c = '\r') = true
    · rw [if_pos h1]; decide
    · rw [if_neg h1]; exact hc

theorem collapseWsAux_filter : ∀ (b : Bool) (l : List Char),
    (collapseWsAux b l).filter (fun c => !isPySpace c) = l.filter (fun c => !isPySpace c) := by
  intro b l
  induction l generalizing b with
  | nil => rfl
  | cons c cs ih =>
    rw [collapseWsAux]
    by_cases hc : isPySpace c
    · rw [if_pos hc]
      cases b with
      | true =>
        rw [if_pos rfl, ih true, List.filter_cons, if_neg (by simpa using hc)]
      | false =>
        rw [if_neg (by simp)]
        rw [List.filter_cons, List.filter_cons,
          if_neg (show ¬ (!isPySpace ' ') = true from by decide),
          if_neg (by simpa using hc)]
        exact ih true
    · rw [if_neg hc, List.filter_cons, List.filter_cons]
      simp only [hc, Bool.not_false, if_true]
      rw [ih false]

theorem dropWhileWs_filter : ∀ (l : List Char),
    ((l.dropWhile isPySpace).filter (fun c => !isPySpace c)) = l.filter (fun c => !isPySpace c) := by
  intro l
  induction l with
  | nil => rfl
  | cons c cs ih =>
    by_cases hc : isPySpace c
    · rw [List.dropWhile_cons_of_pos hc, List.filter_cons, if_neg (by simpa using hc)]
      exact ih
    · rw [List.dropWhile_cons_of_neg hc]

theorem pyStripList_filter (l : List Char) :
    (pyStripList l).filter (fun c => !isPySpace c) = l.filter (fun c => !isPySpace c) := by
  rw [pyStripList, dropTrailingWs]
  rw [List.filter_reverse, dropWhileWs_filter, List.filter_reverse, List.reverse_reverse,
    dropWhileWs_filter]

/-- The normalizer deletes and rewrites whitespace only: the subsequence of
non-whitespace characters is untouched. -/
theorem clean_preserves_non_ws (s : String) :
    (clean_text_for_csv_str s).data.filter (fun c => !isPySpace c) =
      s.data.filter (fun c => !isPySpace c) := by
  show (pyStripList (collapseWs (replaceNLCR (replaceCRLF s.data)))).filter _ = _
  rw [pyStripList_filter, collapseWs, collapseWsAux_filter, replaceNLCR_filter,
    replaceCRLF_filter]

/-- C8 — `clean_text_for_csv` maps `None` to `""` and `"a\nb  c"` to
`"a b c"`; in general it collapses line breaks and whitespace runs to single
spaces and trims both ends: every whitespace character of the output is a
plain space, no two spaces are adjacent, the output neither starts nor ends
with a space, and the non-whitespace characters of the input are preserved
in order. -/
theorem clean_text_for_csv_normalizes :
    clean_text_for_csv none = "" ∧
    clean_text_for_csv (some "a\nb  c") = "a b c" ∧
    ∀ s : String,
      (∀ c ∈ (clean_text_for_csv_str s).data, isPySpace c = true → c = ' ') ∧
      List.Chain' (fun a b => ¬(a = ' ' ∧ b = ' ')) (clean_text_for_csv_str s).data ∧
      (clean_text_for_csv_str s).data.head? ≠ some ' ' ∧
      (clean_text_for_csv_str s).data.getLast? ≠ some ' ' ∧
      (clean_text_for_csv_str s).data.filter (fun c => !isPySpace c) =
        s.data.filter (fun c => !isPySpace c) :=
  ⟨rfl, by decide, fun s =>
    ⟨(clean_normal_form s).1, (clean_normal_form s).2.1, (clean_normal_form s).2.2.1,
     (clean_normal_form s).2.2.2, clean_preserves_non_ws s⟩⟩


/-! ## The column header of `save_to_csv` -/

theorem allKeysF_mem : ∀ (rows : List Row) (x : String),
    x ∈ allKeysF rows ↔ ∃ r ∈ rows, x ∈ rowKeys r := by
  intro rows x
  induction rows with
  | nil => simp [allKeysF]
  | cons r rest ih =>
    simp only [allKeysF, List.foldr_cons, Finset.mem_union, List.mem_toFinset] at *
    constructor
    · intro h
      rcases h with h | h
      · exact ⟨r, by simp, h⟩
      · rcases ih.mp h with ⟨r', hr', hx⟩
        exact ⟨r', List.mem_cons_of_mem _ hr', hx⟩
    · intro h
      rcases h with ⟨r', hr', hx⟩
      rcases List.mem_cons.mp hr' with h | h
      · subst h; exact Or.inl hx
      · exact Or.inr (ih.mpr ⟨r', h, hx⟩)

theorem allKeysF_perm {rows rows' : List Row} (h : rows.Perm rows') :
    allKeysF rows = allKeysF rows' := by
  apply Finset.ext
  intro x
  rw [allKeysF_mem, allKeysF_mem]
  constructor
  · intro ⟨r, hr, hx⟩
    exact ⟨r, h.mem_iff.mp hr, hx⟩
  · intro ⟨r, hr, hx⟩
    exact ⟨r, h.mem_iff.mpr hr, hx⟩

/-- C5 — The export header is permutation-invariant in the record list (the
key set is collected by union before sorting), and it always decomposes as a
subsequence of the fixed standard columns, in their fixed order, followed by
the non-standard specification keys in strictly increasing lexicographic
order; a column appears in the header exactly when some record's row carries
it. -/
theorem fieldnames_header (ps qs : List Product) (h : ps.Perm qs) :
    fieldnames ps = fieldnames qs ∧
    (∀ k, k ∈ fieldnames ps ↔ ∃ p ∈ ps, k ∈ rowKeys (buildRow p)) ∧
    ∃ stdPart specPart, fieldnames ps = stdPart ++ specPart ∧
      stdPart.Sublist standardFields ∧
      List.Sorted (· < ·) specPart ∧
      ∀ k ∈ specPart, k ∉ standardFields := by
  refine ⟨?_, ?_, ?_⟩
  · have hrows : (ps.map buildRow).Perm (qs.map buildRow) := h.map buildRow
    have hak : allKeysF (ps.map buildRow) = allKeysF (qs.map buildRow) := allKeysF_perm hrows
    rw [fieldnames, fieldnames, fieldnamesOfRows, fieldnamesOfRows, hak]
  · intro k
    rw [fieldnames, fieldnamesOfRows]
    rw [List.mem_append, List.mem_filter, Finset.mem_sort, Finset.mem_filter]
    have hmem : k ∈ allKeysF (ps.map buildRow) ↔ ∃ p ∈ ps, k ∈ rowKeys (buildRow p) := by
      rw [allKeysF_mem]
      constructor
      · intro ⟨r, hr, hx⟩
        rcases List.mem_map.mp hr with ⟨p, hp, hpe⟩
        exact ⟨p, hp, by rw [hpe]; exact hx⟩
      · intro ⟨p, hp, hx⟩
        exact ⟨buildRow p, List.mem_map_of_mem buildRow hp, hx⟩
    constructor
    · intro hin
      rcases hin with ⟨_, hin⟩ | ⟨hin, _⟩
      · exact hmem.mp (by simpa using hin)
      · exact hmem.mp hin
    · intro hin
      by_cases hstd : k ∈ standardFields
      · exact Or.inl ⟨hstd, by simpa using hmem.mpr hin⟩
      · exact Or.inr ⟨hmem.mpr hin, by simpa using hstd⟩
  · refine ⟨standardFields.filter (fun k => k ∈ allKeysF (ps.map buildRow)),
      Finset.sort (· ≤ ·) ((allKeysF (ps.map buildRow)).filter (fun k => k ∉ standardFields)),
      rfl, List.filter_sublist _, Finset.sort_sorted_lt _, ?_⟩
    intro k hk
    rw [Finset.mem_sort, Finset.mem_filter] at hk
    exact hk.2

/-- C5 — witness: swapping two concrete records leaves the header unchanged.
-/
theorem fieldnames_header_witness :
    fieldnames [sampleRecordA, sampleRecordB] = fieldnames [sampleRecordB, sampleRecordA] :=
  (fieldnames_header [sampleRecordA, sampleRecordB] [sampleRecordB, sampleRecordA]
    (List.Perm.swap sampleRecordB sampleRecordA [])).1

end AvantorScraper
